import Mathlib

/-!
Verification of the AgTalk scraper pipeline (collector / normalizer /
classifier).  The Python sources are shallowly embedded: pandas dataframes
become lists of records, `re`-based substitutions and searches become
executable functions over `List Char` that mirror the regex engine's
leftmost / greedy semantics for the concrete patterns the code uses, and
the pretrained sentiment model is an abstract per-text function.  Character
classes (`\d`, `\s`, `\w`) are modelled at their ASCII meaning, which is
the range the scraped forum data and all keyword phrases live in.
-/

namespace AgTalk

/-! ## Character classes (ASCII readings of Python `\d`, `\s`, `\w`) -/

/-- Python `\d` restricted to ASCII: a decimal digit. -/
def isDigitC (c : Char) : Bool := '0' ≤ c && c ≤ '9'

/-- Python `\s` restricted to ASCII: space, tab, newline, carriage return,
vertical tab, form feed. -/
def isSpaceC (c : Char) : Bool :=
  c = ' ' || c = '\t' || c = '\n' || c = '\r' || c = '\x0b' || c = '\x0c'

/-- Python `\w` restricted to ASCII: letter, digit or underscore. -/
def isWordC (c : Char) : Bool :=
  ('a' ≤ c && c ≤ 'z') || ('A' ≤ c && c ≤ 'Z') || isDigitC c || c = '_'

/-- ASCII lower-casing, as `re.IGNORECASE` compares ASCII letters. -/
def lowerC (c : Char) : Char :=
  if 'A' ≤ c && c ≤ 'Z' then Char.ofNat (c.toNat + 32) else c

/-- Length of the leading run of decimal digits. -/
def digitRun : List Char → Nat
  | [] => 0
  | c :: cs => if isDigitC c then digitRun cs + 1 else 0

/-- Length of the leading run of whitespace characters. -/
def wsRun : List Char → Nat
  | [] => 0
  | c :: cs => if isSpaceC c then wsRun cs + 1 else 0

/-- Length of the leading run of non-whitespace characters (regex `\S+`). -/
def nonSpaceRun : List Char → Nat
  | [] => 0
  | c :: cs => if isSpaceC c then 0 else nonSpaceRun cs + 1

/-- Length of the leading run of characters `.` matches (anything but a
newline): what a trailing `.*` consumes. -/
def lineRun : List Char → Nat
  | [] => 0
  | c :: cs => if c = '\n' then 0 else lineRun cs + 1

/-- The segment of `t` of length `l` starting at index `i`. -/
def seg (t : List Char) (i l : Nat) : List Char := (t.drop i).take l

/-! ## The classifier's sentiment score (roberta_sentiment.py lines 174-179) -/

/-- `df["sentiment_score"] = df["negative"] * -1 + df["neutral"] * 0 +
df["positive"] * 1`, per row. -/
def sentiment_score (neg neu pos : ℚ) : ℚ := neg * (-1) + neu * 0 + pos * 1

/-- Modelled from the spec's words for comparison: `sentiment_score =
positive_prob − negative_prob`. -/
def spec_sentiment_score (pos neg : ℚ) : ℚ := pos - neg

/-! ## Softmax over three logits and pandas `idxmax` (lines 134, 172) -/

/-- `torch.nn.functional.softmax` on one row of three logits, with the
exponential abstracted as a function `e` (only its strict positivity is
used).  Returns the (negative, neutral, positive) probabilities. -/
def softmax3 (e : ℚ → ℚ) (x y z : ℚ) : ℚ × ℚ × ℚ :=
  (e x / (e x + e y + e z), e y / (e x + e y + e z), e z / (e x + e y + e z))

/-- `sentiment_df.idxmax(axis=1)` over columns
`["negative", "neutral", "positive"]`: the first column name attaining the
row maximum. -/
def idxmax3 (neg neu pos : ℚ) : String :=
  if neu ≤ neg ∧ pos ≤ neg then "negative"
  else if pos ≤ neu then "neutral"
  else "positive"

/-- The probability stored in the named column of a (negative, neutral,
positive) row. -/
def labelProb (lbl : String) (p : ℚ × ℚ × ℚ) : ℚ :=
  if lbl = "negative" then p.1 else if lbl = "neutral" then p.2.1 else p.2.2

/-! ## Batched inference (roberta_sentiment.py lines 102-141)

`predict_sentiment` walks `range(0, len(texts), batch_size)`, runs the
model on each slice `texts[i:i+batch_size]` and extends `results` with the
returned rows in order; the model is abstracted as a per-text function
(the HuggingFace contract: one output row per batch element, aligned).
The final `sentiment_df.columns = ["negative","neutral","positive"]`
raises a pandas `ValueError` ("Length mismatch") when `results` is empty,
because `pd.DataFrame([])` has zero columns; and `range` with step 0
raises.  Both failure modes are modelled with `Except.error`. -/

/-- The batching loop; `fuel` only bounds the recursion and is set to
`texts.length`, enough whenever `batch_size ≥ 1`. -/
def batchLoop {α : Type} (model : String → α) (batch_size : Nat) :
    Nat → List String → List α
  | _, [] => []
  | 0, _ => []
  | fuel + 1, texts =>
      (texts.take batch_size).map model ++
        batchLoop model batch_size fuel (texts.drop batch_size)

/-- `predict_sentiment`: batched inference returning the probability rows
in input order, or the library error the code would surface. -/
def predict_sentiment {α : Type} (model : String → α) (texts : List String)
    (batch_size : Nat) : Except String (List α) :=
  if batch_size = 0 then
    Except.error "range() arg 3 must not be zero"
  else
    let results := batchLoop model batch_size texts.length texts
    if results.isEmpty then
      Except.error "Length mismatch: Expected axis has 0 elements, new values have 3 elements"
    else
      Except.ok results

/-! ## Precision keyword filter (roberta_sentiment.py lines 37-75)

The code builds `r"\b(" + "|".join(map(re.escape, precision_keywords)) + r")\b"`
and keeps the rows whose `clean_text` contains a match, case-insensitively,
with `na=False` turning a missing value into a non-match.  A match of that
pattern at index `i` is a case-insensitive literal occurrence of one of the
thirteen phrases with a `\b` word boundary at each end. -/

/-- The fixed keyword vocabulary, exactly as listed in the source. -/
def precision_keywords : List String :=
  ["variable rate", "VRT", "prescription map", "yield monitor", "yield map",
   "section control", "rate controller", "RTK", "autosteer",
   "precision planter", "grid sampling", "variable population",
   "overlap control"]

/-- Is the character at index `j` (if any) a word character? -/
def wordAt (s : List Char) (j : Nat) : Bool :=
  match s.get? j with
  | some c => isWordC c
  | none => false

/-- Regex `\b` at position `i`: the word-character status changes between
the character before `i` and the character at `i` (out of range counts as
non-word). -/
def wordBoundaryAt (s : List Char) (i : Nat) : Bool :=
  (match i with
   | 0 => false
   | j + 1 => wordAt s j) != wordAt s i

/-- The escaped keyword `kw` matches at index `i` of `s` under
`re.IGNORECASE` with a `\b` on each side. -/
def kwMatchAt (s kw : List Char) (i : Nat) : Bool :=
  ((seg s i kw.length).map lowerC == kw.map lowerC) &&
    wordBoundaryAt s i && wordBoundaryAt s (i + kw.length)

/-- `Series.str.contains(pattern, case=False, regex=True)` for the keyword
pattern: some keyword matches at some index. -/
def containsPrecisionKeyword (s : List Char) : Bool :=
  (List.range s.length).any fun i =>
    precision_keywords.any fun kw => kwMatchAt s kw.toList i

/-- The claim's reading, stated declaratively: the text has at least one
case-insensitive whole-word occurrence of one of the thirteen keyword
phrases, treated as literal strings. -/
def HasPrecisionKeyword (s : List Char) : Prop :=
  ∃ kw ∈ precision_keywords, ∃ i, kwMatchAt s kw.toList i = true

/-- A row of the classifier's input CSV.  Only the `clean_text` column is
consulted by this stage (`none` models a NaN cell); the remaining columns
ride along as an opaque list. -/
structure SentPost where
  clean_text : Option String
  rest : List (Option String)
  deriving DecidableEq

/-- `filter_precision_posts`: keep the rows whose `clean_text` matches the
keyword pattern; `na=False` makes a missing value a non-match. -/
def filter_precision_posts (df : List SentPost) : List SentPost :=
  df.filter fun r =>
    match r.clean_text with
    | some s => containsPrecisionKeyword s.toList
    | none => false

/-! ## The classifier's main block (roberta_sentiment.py lines 145-184) -/

/-- `BATCH_SIZE = 16`. -/
def BATCH_SIZE : Nat := 16

/-- Outcome of one run of the classifier stage: the early `exit()` on an
empty filter result, an unrecovered library error, or the rows written to
the output CSV. -/
inductive SentimentRun where
  | exited : SentimentRun
  | failed (msg : String) : SentimentRun
  | wrote (rows : List (SentPost × (ℚ × ℚ × ℚ) × String × ℚ)) : SentimentRun
  deriving DecidableEq

/-- The `__main__` block: filter, exit early when nothing survives,
otherwise run batched inference on `clean_text.astype(str)` (NaN would
print as "nan"), merge the probabilities positionally, derive the arg-max
label and the weighted score, and write the result. -/
def roberta_main (model : String → ℚ × ℚ × ℚ) (df : List SentPost) :
    SentimentRun :=
  let f := filter_precision_posts df
  if f.isEmpty then SentimentRun.exited
  else
    match predict_sentiment model (f.map fun r => r.clean_text.getD "nan")
        BATCH_SIZE with
    | Except.error e => SentimentRun.failed e
    | Except.ok probs =>
        SentimentRun.wrote ((f.zip probs).map fun rp =>
          (rp.1, rp.2, idxmax3 rp.2.1 rp.2.2.1 rp.2.2.2,
            sentiment_score rp.2.1 rp.2.2.1 rp.2.2.2))

/-! ## A generic `re.sub(pattern, repl, s)` driver

`re.sub` scans the subject left to right; at each position it either
replaces a (never-empty, for the patterns below) match and resumes right
after it, or moves on one character.  A matcher receives the character
preceding the current position (for `\b` look-behind; match positions are
judged against the original string, as the engine does) and the remaining
suffix, and returns the length of the match starting here, if any.  `fuel`
only bounds the recursion; `reSub` passes the subject's length, which
suffices because every match consumes at least one character. -/

def subGo (m : Option Char → List Char → Option Nat) (repl : List Char) :
    Nat → Option Char → List Char → List Char
  | 0, _, s => s
  | _ + 1, _, [] => []
  | fuel + 1, prev, c :: cs =>
      let k := (m prev (c :: cs)).getD 0
      if k = 0 then c :: subGo m repl fuel (some c) cs
      else repl ++ subGo m repl fuel ((c :: cs).get? (k - 1)) (cs.drop (k - 1))

/-- `re.sub` with `repl` a literal replacement. -/
def reSub (m : Option Char → List Char → Option Nat) (repl : List Char)
    (s : List Char) : List Char :=
  subGo m repl s.length none s

/-- Does the look-behind character exist and count as a word character? -/
def prevWord : Option Char → Bool
  | some c => isWordC c
  | none => false

/-- Matcher for `\d{1,2}` followed by the literal `sep` (a non-digit):
the backtracking choice between one and two digits is forced by the
separator, so at most one consumed length is possible. -/
def matchD12Sep (sep : Char) : List Char → Option Nat
  | a :: b :: c :: _ =>
      if isDigitC a && isDigitC b && (c == sep) then some 3
      else if isDigitC a && (b == sep) then some 2
      else none
  | [a, b] => if isDigitC a && (b == sep) then some 2 else none
  | _ => none

/-! ## The collector's header extraction (five_year_spider.py lines 69-77)

`parse_thread` runs `re.search` twice on the assembled header text:
`\d{1,2}/\d{1,2}/\d{4}\s+\d{1,2}:\d{2}` for `post_date` (the whole match)
and `#(\d+)` for `post_id` (the captured digits).  `re.search` returns the
match at the leftmost position where the pattern matches; for these
patterns every greedy choice point is forced by the literal that follows
it, so at each position at most one match length is possible. -/

/-- The final `\d{2}` of the date pattern: exactly two digits (whatever
follows is unconstrained). -/
def dateTail2 (s : List Char) : Option Nat :=
  if 2 ≤ s.length ∧ (s.take 2).all isDigitC = true then some 2 else none

/-- The `\s+\d{1,2}:\d{2}` tail: the whitespace run is forced to its full
length because a digit must follow. -/
def dateTail1 (s : List Char) : Option Nat :=
  if 1 ≤ wsRun s then
    match matchD12Sep ':' (s.drop (wsRun s)) with
    | none => none
    | some k3 =>
        match dateTail2 ((s.drop (wsRun s)).drop k3) with
        | none => none
        | some k4 => some (wsRun s + k3 + k4)
  else none

/-- The `\d{4}` group followed by the tail. -/
def dateMid (s : List Char) : Option Nat :=
  if 4 ≤ s.length ∧ (s.take 4).all isDigitC = true then
    match dateTail1 (s.drop 4) with
    | none => none
    | some k => some (4 + k)
  else none

/-- Match length of `\d{1,2}/\d{1,2}/\d{4}\s+\d{1,2}:\d{2}` anchored at
the current position, if any. -/
def dateSearchLen (s : List Char) : Option Nat :=
  match matchD12Sep '/' s with
  | none => none
  | some k1 =>
      match matchD12Sep '/' (s.drop k1) with
      | none => none
      | some k2 =>
          match dateMid ((s.drop k1).drop k2) with
          | none => none
          | some k => some (k1 + k2 + k)

/-- Match length of `#(\d+)` anchored at the current position: a hash,
then a greedy (maximal) non-empty digit run. -/
def idSearchLen : List Char → Option Nat
  | x :: c :: rest =>
      if x = '#' ∧ isDigitC c = true then some (1 + digitRun (c :: rest))
      else none
  | _ => none

/-- `re.search`: try the matcher at position 0, 1, …; return the first
(position, match length) pair that succeeds. -/
def reSearch (m : List Char → Option Nat) : List Char → Option (Nat × Nat)
  | [] => match m [] with
          | some k => some (0, k)
          | none => none
  | c :: cs =>
      match m (c :: cs) with
      | some k => some (0, k)
      | none => (reSearch m cs).map fun ik => (ik.1 + 1, ik.2)

/-- `post_date = date_match.group(0) if date_match else None` (lines
69-72): the full text of the first date match. -/
def extract_post_date (header : List Char) : Option (List Char) :=
  (reSearch dateSearchLen header).map fun ik => seg header ik.1 ik.2

/-- `post_id = id_match.group(1) if id_match else None` (lines 76-77):
the digits captured by the first `#(\d+)` match. -/
def extract_post_id (header : List Char) : Option (List Char) :=
  (reSearch idSearchLen header).map fun ik => seg header (ik.1 + 1) (ik.2 - 1)

/-- Declarative shape of a substring matching
`\d{1,2}/\d{1,2}/\d{4}\s+\d{1,2}:\d{2}`. -/
def IsDate7 (s : List Char) : Prop :=
  ∃ a b c w d e : List Char,
    s = a ++ '/' :: (b ++ '/' :: (c ++ (w ++ (d ++ ':' :: e)))) ∧
      a ≠ [] ∧ a.length ≤ 2 ∧ a.all isDigitC = true ∧
      b ≠ [] ∧ b.length ≤ 2 ∧ b.all isDigitC = true ∧
      c.length = 4 ∧ c.all isDigitC = true ∧
      w ≠ [] ∧ w.all isSpaceC = true ∧
      d ≠ [] ∧ d.length ≤ 2 ∧ d.all isDigitC = true ∧
      e.length = 2 ∧ e.all isDigitC = true

/-- Position `i` of `t` starts `#` followed by a digit: where `#(\d+)`
can match. -/
def IsHashDigitAt (t : List Char) (i : Nat) : Prop :=
  ∃ c rest, t.drop i = '#' :: c :: rest ∧ isDigitC c = true

/-- `g` is the non-empty maximal digit run starting right after position
`i` of `t`: what `(\d+)` captures there. -/
def CapturedDigitsAt (t : List Char) (i : Nat) (g : List Char) : Prop :=
  ∃ rest, t.drop (i + 1) = g ++ rest ∧ g ≠ [] ∧ g.all isDigitC = true ∧
    (rest = [] ∨ ∃ c rest2, rest = c :: rest2 ∧ isDigitC c = false)

/-! ## The normalizer's substitution chain (clean_agtalk_posts.py 35-91) -/

/-- Matcher for `\b\d{1,2}/\d{1,2}/\d{2,4}\s*\d{0,2}:?\d{0,2}` (line 55).
After the mandatory date part the optional tail is consumed greedily; no
choice point survives backtracking, so the consumed length is computed
directly. -/
def dateCleanAt (prev : Option Char) (s : List Char) : Option Nat :=
  if prevWord prev then none
  else
    match matchD12Sep '/' s with
    | none => none
    | some k1 =>
        match matchD12Sep '/' (s.drop k1) with
        | none => none
        | some k2 =>
            let s2 := (s.drop k1).drop k2
            let y := digitRun s2
            if 2 ≤ y then
              let j := min 4 y
              let s3 := s2.drop j
              let w := wsRun s3
              let s4 := s3.drop w
              let a := min 2 (digitRun s4)
              let s5 := s4.drop a
              let cq : Nat := match s5 with | ':' :: _ => 1 | _ => 0
              let s6 := s5.drop cq
              let b := min 2 (digitRun s6)
              some (k1 + k2 + j + w + a + cq + b)
            else none

/-- Matcher for `\b\d{1,2}:\d{2}\b` (line 58). -/
def timeCleanAt (prev : Option Char) (s : List Char) : Option Nat :=
  if prevWord prev then none
  else
    match matchD12Sep ':' s with
    | none => none
    | some k =>
        let s2 := s.drop k
        if 2 ≤ s2.length ∧ (s2.take 2).all isDigitC = true then
          match s2.drop 2 with
          | [] => some (k + 2)
          | c :: _ => if isWordC c then none else some (k + 2)
        else none

/-- Matcher for `http\S+|www\S+` (line 64): either literal, then at least
one non-space character, consumed greedily. -/
def urlAt (_ : Option Char) (s : List Char) : Option Nat :=
  if ['h', 't', 't', 'p'].isPrefixOf s then
    let r := nonSpaceRun (s.drop 4)
    if 1 ≤ r then some (4 + r) else none
  else if ['w', 'w', 'w'].isPrefixOf s then
    let r := nonSpaceRun (s.drop 3)
    if 1 ≤ r then some (3 + r) else none
  else none

/-- `"Edited by "` as written in the pattern of line 69. -/
def editedMarker : List Char := "Edited by ".toList

/-- `"Attachments"` as written in the pattern of line 70. -/
def attachMarker : List Char := "Attachments".toList

/-- Matcher for `marker.*` (lines 69-70): the literal marker, then `.*`
greedily up to the next newline or the end (`.` does not match `\n`). -/
def markerLineAt (marker : List Char) (_ : Option Char) (s : List Char) :
    Option Nat :=
  if marker.isPrefixOf s then
    some (marker.length + lineRun (s.drop marker.length))
  else none

/-- The extension alternation `(jpg|jpeg|png|pdf)`, tried in the
pattern's order. -/
def extAfter (s : List Char) : Option Nat :=
  if ['j', 'p', 'g'].isPrefixOf s then some 3
  else if ['j', 'p', 'e', 'g'].isPrefixOf s then some 4
  else if ['p', 'n', 'g'].isPrefixOf s then some 3
  else if ['p', 'd', 'f'].isPrefixOf s then some 3
  else none

/-- Backtracking search for `\S+\.(jpg|jpeg|png|pdf)` at the current
position: the greedy `\S+` retreats from the longest split, so try a dot
at index `k`, `k-1`, …, `1`. -/
def tryDotExt (s : List Char) : Nat → Option Nat
  | 0 => none
  | k + 1 =>
      match (match s.get? (k + 1) with
             | some '.' => (extAfter (s.drop (k + 2))).map fun e => (k + 1) + 1 + e
             | _ => none) with
      | some r => some r
      | none => tryDotExt s k

/-- Matcher for `\S+\.(jpg|jpeg|png|pdf)` (line 74). -/
def fileRefAt (_ : Option Char) (s : List Char) : Option Nat :=
  let n := nonSpaceRun s
  if 2 ≤ n then tryDotExt s (n - 1) else none

/-- `"downloads"` from the pattern of line 75. -/
def downloadsLit : List Char := "downloads".toList

/-- Matcher for `\d+KB\s*-\s*\d+\s*downloads` (line 75); every greedy run
is forced by the literal that follows it. -/
def kbDownloadsAt (_ : Option Char) (s : List Char) : Option Nat :=
  let d1 := digitRun s
  if 1 ≤ d1 then
    let s1 := s.drop d1
    if ['K', 'B'].isPrefixOf s1 then
      let s2 := s1.drop 2
      let w1 := wsRun s2
      match s2.drop w1 with
      | '-' :: s4 =>
          let w2 := wsRun s4
          let s5 := s4.drop w2
          let d2 := digitRun s5
          if 1 ≤ d2 then
            let s6 := s5.drop d2
            let w3 := wsRun s6
            if downloadsLit.isPrefixOf (s6.drop w3) then
              some (d1 + 2 + w1 + 1 + w2 + d2 + w3 + downloadsLit.length)
            else none
          else none
      | _ => none
    else none
  else none

/-- `"full)."` from the pattern of line 76. -/
def fullParenLit : List Char := "full).".toList

/-- The lazy `.*?full\)\.` after the opening parenthesis: the shortest
newline-free stretch ending in the literal `full).`. -/
def lazyToFullParen : List Char → Option Nat
  | [] => none
  | c :: cs =>
      if fullParenLit.isPrefixOf (c :: cs) then some 6
      else if c = '\n' then none
      else (lazyToFullParen cs).map (· + 1)

/-- Matcher for `\(.*?full\)\.` (line 76). -/
def parenFullAt (_ : Option Char) (s : List Char) : Option Nat :=
  match s with
  | '(' :: rest => (lazyToFullParen rest).map (· + 1)
  | _ => none

/-- The mis-encoded apostrophe literal `"‚Äô"` of line 80. -/
def mojibakeLit : List Char := ['‚', 'Ä', 'ô']

/-- Matcher for the literal (non-regex) replacement of line 80. -/
def mojibakeAt (_ : Option Char) (s : List Char) : Option Nat :=
  if mojibakeLit.isPrefixOf s then some 3 else none

/-- Matcher for `\s+\)` (line 84), replaced by `")"`. -/
def wsCloseParenAt (_ : Option Char) (s : List Char) : Option Nat :=
  let w := wsRun s
  if 1 ≤ w then
    match s.drop w with
    | ')' :: _ => some (w + 1)
    | _ => none
  else none

/-- Matcher for `\(\s+` (line 85), replaced by `"("`. -/
def openParenWsAt (_ : Option Char) (s : List Char) : Option Nat :=
  match s with
  | '(' :: rest =>
      let w := wsRun rest
      if 1 ≤ w then some (1 + w) else none
  | _ => none

/-- Matcher for `\s+` (line 89), replaced by a single space. -/
def wsCollapseAt (_ : Option Char) (s : List Char) : Option Nat :=
  let w := wsRun s
  if 1 ≤ w then some w else none

/-- Python `str.strip()`: drop whitespace at both ends. -/
def stripChars (s : List Char) : List Char :=
  ((s.dropWhile isSpaceC).reverse.dropWhile isSpaceC).reverse

/-! ## The encoding round-trip of line 49:
`x.encode("latin1", errors="ignore").decode("utf-8", errors="ignore")`. -/

/-- `str.encode("latin1", errors="ignore")`: each code point ≤ 0xFF becomes
one byte; anything larger is dropped. -/
def encodeLatin1Ignore (s : List Char) : List Nat :=
  s.foldr (fun c acc => if c.toNat ≤ 255 then c.toNat :: acc else acc) []

/-- A UTF-8 continuation byte. -/
def contOk (b : Nat) : Bool := 128 ≤ b && b ≤ 191

/-- Valid first continuation after a three-byte lead (excludes overlong
forms and surrogates, as CPython does). -/
def cont3Ok (b b2 : Nat) : Bool :=
  if b = 224 then 160 ≤ b2 && b2 ≤ 191
  else if b = 237 then 128 ≤ b2 && b2 ≤ 159
  else contOk b2

/-- Valid first continuation after a four-byte lead (excludes overlong
forms and code points past U+10FFFF). -/
def cont4Ok (b b2 : Nat) : Bool :=
  if b = 240 then 144 ≤ b2 && b2 ≤ 191
  else if b = 244 then 128 ≤ b2 && b2 ≤ 143
  else contOk b2

/-- `bytes.decode("utf-8", errors="ignore")`: decode valid sequences,
skip the maximal subpart of an invalid one, drop a truncated tail.  The
fuel is the byte count; every step consumes at least one byte. -/
def utf8Go : Nat → List Nat → List Char
  | 0, _ => []
  | _ + 1, [] => []
  | fuel + 1, b :: bs =>
      if b ≤ 127 then Char.ofNat b :: utf8Go fuel bs
      else if 194 ≤ b && b ≤ 223 then
        match bs with
        | b2 :: bs2 =>
            if contOk b2 then
              Char.ofNat ((b - 192) * 64 + (b2 - 128)) :: utf8Go fuel bs2
            else utf8Go fuel (b2 :: bs2)
        | [] => []
      else if 224 ≤ b && b ≤ 239 then
        match bs with
        | b2 :: b3 :: bs3 =>
            if cont3Ok b b2 then
              if contOk b3 then
                Char.ofNat ((b - 224) * 4096 + (b2 - 128) * 64 + (b3 - 128)) ::
                  utf8Go fuel bs3
              else utf8Go fuel (b3 :: bs3)
            else utf8Go fuel (b2 :: b3 :: bs3)
        | [b2] => if cont3Ok b b2 then [] else utf8Go fuel [b2]
        | [] => []
      else if 240 ≤ b && b ≤ 244 then
        match bs with
        | b2 :: b3 :: b4 :: bs4 =>
            if cont4Ok b b2 then
              if contOk b3 then
                if contOk b4 then
                  Char.ofNat ((b - 240) * 262144 + (b2 - 128) * 4096 +
                      (b3 - 128) * 64 + (b4 - 128)) :: utf8Go fuel bs4
                else utf8Go fuel (b4 :: bs4)
              else utf8Go fuel (b3 :: b4 :: bs4)
            else utf8Go fuel (b2 :: b3 :: b4 :: bs4)
        | [b2, b3] =>
            if cont4Ok b b2 then
              if contOk b3 then [] else utf8Go fuel [b3]
            else utf8Go fuel [b2, b3]
        | [b2] => if cont4Ok b b2 then [] else utf8Go fuel [b2]
        | [] => []
      else utf8Go fuel bs

/-- The decode entry point. -/
def utf8DecodeIgnore (bs : List Nat) : List Char := utf8Go bs.length bs

/-- The whole encoding-repair heuristic of line 49. -/
def fixEncoding (s : List Char) : List Char :=
  utf8DecodeIgnore (encodeLatin1Ignore s)

/-! ## `clean_text_column` (clean_agtalk_posts.py lines 35-91) -/

/-- The transformation chain of §4.2, applied in the source's order
(`astype(str)` is the identity on string-valued input). -/
def cleanChars (s : List Char) : List Char :=
  stripChars
    (reSub wsCollapseAt [' ']
      (reSub openParenWsAt ['(']
        (reSub wsCloseParenAt [')']
          (reSub mojibakeAt ['\'']
            (reSub parenFullAt []
              (reSub kbDownloadsAt []
                (reSub fileRefAt []
                  (reSub (markerLineAt attachMarker) []
                    (reSub (markerLineAt editedMarker) []
                      (reSub urlAt []
                        (reSub timeCleanAt []
                          (reSub dateCleanAt []
                            (fixEncoding s)))))))))))))

/-- `clean_text_column` on one cell. -/
def clean_text_column (s : String) : String := String.mk (cleanChars s.toList)

/-- An input on which every individual transformation of the chain is a
no-op: the "already clean" texts of the amended C6. -/
def IsFullyClean (s : List Char) : Prop :=
  fixEncoding s = s ∧
    reSub dateCleanAt [] s = s ∧
    reSub timeCleanAt [] s = s ∧
    reSub urlAt [] s = s ∧
    reSub (markerLineAt editedMarker) [] s = s ∧
    reSub (markerLineAt attachMarker) [] s = s ∧
    reSub fileRefAt [] s = s ∧
    reSub kbDownloadsAt [] s = s ∧
    reSub parenFullAt [] s = s ∧
    reSub mojibakeAt ['\''] s = s ∧
    reSub wsCloseParenAt [')'] s = s ∧
    reSub openParenWsAt ['('] s = s ∧
    reSub wsCollapseAt [' '] s = s ∧
    stripChars s = s

instance (s : List Char) : Decidable (IsFullyClean s) := by
  unfold IsFullyClean
  infer_instance

/-- The claim's reading of the marker substitutions (C8): remove
everything from the first occurrence of `marker` through the end of the
string (the whole string survives when the marker is absent). -/
def truncAtMarker (marker : List Char) : List Char → List Char
  | [] => []
  | c :: cs =>
      if marker.isPrefixOf (c :: cs) then [] else c :: truncAtMarker marker cs

/-! ## The normalizer's main block (clean_agtalk_posts.py lines 96-105) -/

/-- A row of the collector's output CSV, the normalizer's input. -/
structure RawPost where
  thread_id : Option String
  thread_title : Option String
  thread_url : String
  bookmark : Nat
  post_id : Option String
  username : Option String
  post_date : Option String
  post_text : String
  deriving DecidableEq

/-- A row of the normalizer's output: the raw row plus `clean_text`. -/
structure CleanedPost where
  raw : RawPost
  clean_text : String
  deriving DecidableEq

/-- The `__main__` block of the normalizer: compute `clean_text`, then keep
only the rows with `clean_text` of length ≥ 20. -/
def clean_agtalk_main (df : List RawPost) : List CleanedPost :=
  (df.map fun r => { raw := r, clean_text := clean_text_column r.post_text }).filter
    fun c => 20 ≤ c.clean_text.length

/-! ## Theorems for C1, C3, C4 -/

/-- Helper: with positive batch size and enough fuel the batching loop is
exactly `List.map`. -/
theorem batchLoop_eq_map {α : Type} (model : String → α) (batch_size : Nat)
    (hbs : 1 ≤ batch_size) :
    ∀ fuel texts, texts.length ≤ fuel →
      batchLoop model batch_size fuel texts = texts.map model := by
  intro fuel
  induction fuel with
  | zero =>
      intro texts h
      cases texts with
      | nil => rfl
      | cons c cs => simp at h
  | succ f ih =>
      intro texts h
      cases texts with
      | nil => rfl
      | cons c cs =>
          have hdrop : ((c :: cs).drop batch_size).length ≤ f := by
            simp only [List.length_drop, List.length_cons] at *
            omega
          calc batchLoop model batch_size (f + 1) (c :: cs)
              = ((c :: cs).take batch_size).map model ++
                  batchLoop model batch_size f ((c :: cs).drop batch_size) := rfl
            _ = ((c :: cs).take batch_size).map model ++
                  ((c :: cs).drop batch_size).map model := by rw [ih _ hdrop]
            _ = (c :: cs).map model := by
                  rw [← List.map_append, List.take_append_drop]

/-- C1 (amended): for every NON-EMPTY list of texts and batch size ≥ 1,
`predict_sentiment` succeeds and returns exactly one probability row per
input text, the i-th row being the model's output for the i-th text:
consecutive batches concatenated in order realign one-to-one with the
input order. -/
theorem c1_predict_sentiment_preserves_order {α : Type} (model : String → α)
    (texts : List String) (batch_size : Nat)
    (hbs : 1 ≤ batch_size) (hne : texts ≠ []) :
    predict_sentiment model texts batch_size = Except.ok (texts.map model) := by
  unfold predict_sentiment
  have h0 : ¬ batch_size = 0 := by omega
  rw [if_neg h0]
  have hmap := batchLoop_eq_map model batch_size hbs texts.length texts le_rfl
  simp only [hmap]
  have : (texts.map model).isEmpty = false := by
    cases texts with
    | nil => exact absurd rfl hne
    | cons c cs => rfl
  rw [this]
  rfl

/-- Witness for C1's theorem at a concrete input. -/
theorem c1_predict_sentiment_witness :
    predict_sentiment String.length ["ab", "cde", "f"] 2 =
      Except.ok (["ab", "cde", "f"].map String.length) :=
  c1_predict_sentiment_preserves_order String.length ["ab", "cde", "f"] 2
    (by decide) (by decide)

/-- Counterexample for C1 as stated: on the EMPTY list of texts the code
does not return zero probability rows — `pd.DataFrame([])` has no columns,
so assigning the three column names raises `ValueError` — while the claim,
read at `texts = []`, promises a successful empty result. -/
theorem c1_predict_sentiment_counterexample :
    predict_sentiment (fun s => s.length) ([] : List String) 16 =
        Except.error
          "Length mismatch: Expected axis has 0 elements, new values have 3 elements" ∧
      predict_sentiment (fun s => s.length) ([] : List String) 16 ≠
        Except.ok [] := by
  refine ⟨rfl, fun h => ?_⟩
  rw [show predict_sentiment (fun s : String => s.length) ([] : List String) 16 =
      Except.error
        "Length mismatch: Expected axis has 0 elements, new values have 3 elements"
    from rfl] at h
  exact Except.noConfusion h

/-- C3: the score the code computes as `negative*(-1) + neutral*0 +
positive*1` equals the spec's `positive_prob − negative_prob`, and when the
three probabilities lie in [0,1] and sum to 1 the score lies in [-1, 1]. -/
theorem c3_sentiment_score_refines (neg neu pos : ℚ)
    (h1 : 0 ≤ neg) (h2 : neg ≤ 1) (h3 : 0 ≤ neu) (h4 : neu ≤ 1)
    (h5 : 0 ≤ pos) (h6 : pos ≤ 1) (hsum : neg + neu + pos = 1) :
    sentiment_score neg neu pos = spec_sentiment_score pos neg ∧
      -1 ≤ sentiment_score neg neu pos ∧ sentiment_score neg neu pos ≤ 1 := by
  unfold sentiment_score spec_sentiment_score
  refine ⟨by ring, by linarith, by linarith⟩

/-- Witness for C3's theorem at the concrete row (1/4, 1/4, 1/2). -/
theorem c3_sentiment_score_witness :
    sentiment_score (1/4) (1/4) (1/2) = spec_sentiment_score (1/2) (1/4) ∧
      -1 ≤ sentiment_score (1/4) (1/4) (1/2) ∧
        sentiment_score (1/4) (1/4) (1/2) ≤ 1 :=
  c3_sentiment_score_refines (1/4) (1/4) (1/2)
    (by norm_num) (by norm_num) (by norm_num) (by norm_num)
    (by norm_num) (by norm_num) (by norm_num)

/-- Helper: `idxmax3` names a column attaining the maximum, for any row. -/
theorem labelProb_idxmax3_eq_max (n u p : ℚ) :
    labelProb (idxmax3 n u p) (n, u, p) = max n (max u p) := by
  unfold idxmax3
  split_ifs with h1 h2
  · have hl : labelProb "negative" (n, u, p) = n := rfl
    rw [hl, max_eq_left (max_le h1.1 h1.2)]
  · push_neg at h1
    have hnu : n ≤ u := by
      by_contra hc
      push_neg at hc
      have := h1 hc.le
      have : p ≤ n := le_trans h2 hc.le
      linarith
    have hl : labelProb "neutral" (n, u, p) = u := rfl
    rw [hl, max_eq_left h2, max_eq_right hnu]
  · push_neg at h1 h2
    have hnp : n ≤ p := by
      rcases le_or_lt u n with h | h
      · exact (h1 h).le
      · linarith
    have hl : labelProb "positive" (n, u, p) = p := rfl
    rw [hl, max_eq_right h2.le, max_eq_right hnp]

/-- C4: each output row of the classifier is a softmax of the three logits,
so the negative, neutral and positive probabilities sum to 1 exactly (the
floating-point tolerance of the spec is the exact identity in ℚ), and
`sentiment_label` (pandas `idxmax`) names the column holding the maximum of
the three probabilities. -/
theorem c4_softmax_row_sums_to_one_and_label_argmax (e : ℚ → ℚ)
    (he : ∀ q, 0 < e q) (x y z : ℚ) :
    (softmax3 e x y z).1 + (softmax3 e x y z).2.1 + (softmax3 e x y z).2.2 = 1 ∧
      labelProb
          (idxmax3 (softmax3 e x y z).1 (softmax3 e x y z).2.1
            (softmax3 e x y z).2.2)
          (softmax3 e x y z) =
        max (softmax3 e x y z).1
          (max (softmax3 e x y z).2.1 (softmax3 e x y z).2.2) := by
  have hs : 0 < e x + e y + e z := by
    have := he x; have := he y; have := he z; linarith
  constructor
  · unfold softmax3
    field_simp
  · exact labelProb_idxmax3_eq_max _ _ _

/-- Witness for C4's theorem with the constant-one exponential at logits
(0, 0, 0). -/
theorem c4_softmax_witness :
    (softmax3 (fun _ => (1 : ℚ)) 0 0 0).1 +
        (softmax3 (fun _ => (1 : ℚ)) 0 0 0).2.1 +
        (softmax3 (fun _ => (1 : ℚ)) 0 0 0).2.2 = 1 ∧
      labelProb
          (idxmax3 (softmax3 (fun _ => (1 : ℚ)) 0 0 0).1
            (softmax3 (fun _ => (1 : ℚ)) 0 0 0).2.1
            (softmax3 (fun _ => (1 : ℚ)) 0 0 0).2.2)
          (softmax3 (fun _ => (1 : ℚ)) 0 0 0) =
        max (softmax3 (fun _ => (1 : ℚ)) 0 0 0).1
          (max (softmax3 (fun _ => (1 : ℚ)) 0 0 0).2.1
            (softmax3 (fun _ => (1 : ℚ)) 0 0 0).2.2) :=
  c4_softmax_row_sums_to_one_and_label_argmax (fun _ => (1 : ℚ))
    (fun _ => one_pos) 0 0 0

/-! ## Theorems for C2, C9, C10 -/

/-- Helper: all thirteen keyword phrases are non-empty. -/
theorem precision_keywords_nonempty : ∀ kw ∈ precision_keywords, kw.toList ≠ [] := by
  decide

/-- Helper: a keyword match needs at least one character of text, so its
start index is inside the text. -/
theorem kwMatchAt_lt_length (s kw : List Char) (i : Nat)
    (h : kwMatchAt s kw i = true) (hkw : kw ≠ []) : i < s.length := by
  by_contra hc
  push_neg at hc
  unfold kwMatchAt at h
  have hseg : seg s i kw.length = [] := by
    unfold seg
    rw [List.drop_eq_nil_of_le hc, List.take_nil]
  rw [hseg] at h
  simp only [Bool.and_eq_true, beq_iff_eq, List.map_nil] at h
  exact hkw ((List.map_eq_nil_iff).mp h.1.1.symm)

/-- Helper: the Boolean scan the filter runs agrees with the declarative
whole-word-occurrence predicate. -/
theorem containsPrecisionKeyword_iff (s : List Char) :
    containsPrecisionKeyword s = true ↔ HasPrecisionKeyword s := by
  unfold containsPrecisionKeyword HasPrecisionKeyword
  rw [List.any_eq_true]
  constructor
  · rintro ⟨i, _, h⟩
    rw [List.any_eq_true] at h
    rcases h with ⟨kw, hkw, hm⟩
    exact ⟨kw, hkw, i, hm⟩
  · rintro ⟨kw, hkw, i, hm⟩
    have hlt : i < s.length :=
      kwMatchAt_lt_length s kw.toList i hm (precision_keywords_nonempty kw hkw)
    refine ⟨i, List.mem_range.mpr hlt, ?_⟩
    rw [List.any_eq_true]
    exact ⟨kw, hkw, hm⟩

/-- C2: `filter_precision_posts` retains a record iff its `clean_text`
contains, case-insensitively, a whole-word occurrence of one of the 13
fixed keyword phrases treated as literals; in particular a text with "RTK"
delimited by word boundaries is retained and a text whose only "RTK" sits
inside the longer token "RTKish" is rejected. -/
theorem c2_filter_precision_posts_whole_word :
    (∀ (df : List SentPost) (r : SentPost),
        r ∈ filter_precision_posts df ↔
          r ∈ df ∧ ∃ s, r.clean_text = some s ∧ HasPrecisionKeyword s.toList) ∧
      filter_precision_posts [⟨some "our RTK base station", []⟩] =
        [⟨some "our RTK base station", []⟩] ∧
      filter_precision_posts [⟨some "RTKish", []⟩] = [] := by
  refine ⟨fun df r => ?_, by decide, by decide⟩
  simp only [filter_precision_posts, List.mem_filter]
  cases hct : r.clean_text with
  | none => simp [hct]
  | some s => simp [hct, containsPrecisionKeyword_iff]

/-- C9: if the keyword filter retains zero posts, the classifier stage
exits without running inference and without producing output, and the
outcome does not depend on the model at all. -/
theorem c9_empty_filter_exits_early (model : String → ℚ × ℚ × ℚ)
    (df : List SentPost) (h : filter_precision_posts df = []) :
    roberta_main model df = SentimentRun.exited ∧
      ∀ model', roberta_main model df = roberta_main model' df := by
  have h1 : ∀ m : String → ℚ × ℚ × ℚ, roberta_main m df = SentimentRun.exited := by
    intro m
    simp [roberta_main, h]
  exact ⟨h1 model, fun model' => (h1 model).trans (h1 model').symm⟩

/-- Witness for C9's theorem: a one-row dataframe whose `clean_text` is
missing filters to nothing, and the stage exits. -/
theorem c9_empty_filter_witness :
    roberta_main (fun _ => ((1 : ℚ), (0 : ℚ), (0 : ℚ))) [⟨none, []⟩] =
        SentimentRun.exited ∧
      ∀ model', roberta_main (fun _ => ((1 : ℚ), (0 : ℚ), (0 : ℚ))) [⟨none, []⟩] =
        roberta_main model' [⟨none, []⟩] :=
  c9_empty_filter_exits_early _ _ rfl

/-- C10: a record whose `clean_text` is missing (NaN) is treated by
`filter_precision_posts` as a non-match and silently dropped rather than
raising: every retained row has a present `clean_text`, and the one-row
frame with a missing value filters to the empty frame. -/
theorem c10_filter_skips_missing_clean_text :
    (∀ (df : List SentPost) (r : SentPost),
        r ∈ filter_precision_posts df → ∃ s, r.clean_text = some s) ∧
      filter_precision_posts [⟨none, []⟩] = [] := by
  constructor
  · intro df r hr
    rw [filter_precision_posts, List.mem_filter] at hr
    rcases hr with ⟨-, hp⟩
    cases hct : r.clean_text with
    | some s => exact ⟨s, rfl⟩
    | none => rw [hct] at hp; cases hp
  · rfl

/-! ## Theorems for C5, C6, C8 -/

/-- C5: the normalizer's output contains a record iff it is a cleaned input
record whose `clean_text` — the result of the §4.2 transformation chain
applied in order — has length at least 20; every shorter record is dropped
entirely. -/
theorem c5_normalizer_keeps_iff_length_ge_20 :
    ∀ (df : List RawPost) (c : CleanedPost),
      c ∈ clean_agtalk_main df ↔
        c.raw ∈ df ∧ c.clean_text = clean_text_column c.raw.post_text ∧
          20 ≤ c.clean_text.length := by
  intro df c
  unfold clean_agtalk_main
  rw [List.mem_filter, List.mem_map]
  constructor
  · rintro ⟨⟨r, hr, rfl⟩, hlen⟩
    exact ⟨hr, rfl, of_decide_eq_true hlen⟩
  · rintro ⟨hr, hct, hlen⟩
    refine ⟨⟨c.raw, hr, ?_⟩, decide_eq_true hlen⟩
    cases c with
    | mk r ct =>
        simp only at hct
        rw [← hct]

/-- Helper: a trailing `.*` with no newline in sight consumes everything. -/
theorem lineRun_eq_length (s : List Char) (h : '\n' ∉ s) :
    lineRun s = s.length := by
  induction s with
  | nil => rfl
  | cons c cs ih =>
      rw [List.mem_cons, not_or] at h
      unfold lineRun
      rw [if_neg fun hc => h.1 hc.symm, ih h.2, List.length_cons]

/-- Helper: the substitution driver fixes the empty subject. -/
theorem subGo_nil (m : Option Char → List Char → Option Nat)
    (repl : List Char) (fuel : Nat) (prev : Option Char) :
    subGo m repl fuel prev [] = [] := by
  cases fuel <;> rfl

/-- Helper: on a newline-free subject, substituting `marker.*` by the
empty string truncates at the first occurrence of the marker. -/
theorem subGo_markerLine_no_newline (marker : List Char) :
    ∀ (s : List Char) (fuel : Nat) (prev : Option Char),
      s.length ≤ fuel → '\n' ∉ s →
      subGo (markerLineAt marker) [] fuel prev s = truncAtMarker marker s := by
  intro s
  induction s with
  | nil => intro fuel prev _ _; rw [subGo_nil]; rfl
  | cons c cs ih =>
      intro fuel prev hlen hnl
      obtain ⟨f, rfl⟩ : ∃ f, fuel = f + 1 := by
        cases fuel with
        | zero => simp at hlen
        | succ f => exact ⟨f, rfl⟩
      have hnl' : '\n' ∉ cs := fun h => hnl (List.mem_cons_of_mem _ h)
      by_cases hp : marker.isPrefixOf (c :: cs)
      · have hld : '\n' ∉ (c :: cs).drop marker.length :=
          fun h => hnl (List.mem_of_mem_drop h)
        have hmlen : marker.length ≤ (c :: cs).length :=
          (List.isPrefixOf_iff_prefix.mp hp).length_le
        have htr : truncAtMarker marker (c :: cs) =
            if marker.isPrefixOf (c :: cs) then [] else
              c :: truncAtMarker marker cs := rfl
        have hk : markerLineAt marker prev (c :: cs) = some (cs.length + 1) := by
          unfold markerLineAt
          rw [if_pos hp, lineRun_eq_length _ hld, List.length_drop,
            Nat.add_sub_cancel' hmlen, List.length_cons]
        simp only [subGo, hk, Option.getD_some, Nat.succ_ne_zero, if_false,
          Nat.add_sub_cancel, List.drop_length, subGo_nil, List.nil_append]
        rw [htr, if_pos hp]
      · have htr : truncAtMarker marker (c :: cs) =
            if marker.isPrefixOf (c :: cs) then [] else
              c :: truncAtMarker marker cs := rfl
        have hk : markerLineAt marker prev (c :: cs) = none := by
          unfold markerLineAt
          rw [if_neg hp]
        have hlen' : cs.length ≤ f := by
          simp only [List.length_cons] at hlen
          omega
        simp only [subGo, hk, Option.getD_none, if_true]
        rw [ih f (some c) hlen' hnl', htr, if_neg hp]

/-- Helper: `reSub` form of the marker-truncation lemma. -/
theorem reSub_markerLine_eq_trunc (marker : List Char) (s : List Char)
    (h : '\n' ∉ s) :
    reSub (markerLineAt marker) [] s = truncAtMarker marker s :=
  subGo_markerLine_no_newline marker s s.length none le_rfl h

/-- C8 (amended): on input strings without newline characters, the cleaning
chain's marker substitutions remove everything from the first occurrence of
"Edited by " (resp. "Attachments") through the end of the string.  (With a
newline present, `.*` stops at the end of the marker's line.) -/
theorem c8_marker_strips_to_end_amended :
    ∀ s : List Char, '\n' ∉ s →
      reSub (markerLineAt editedMarker) [] s = truncAtMarker editedMarker s ∧
        reSub (markerLineAt attachMarker) [] s = truncAtMarker attachMarker s :=
  fun s h => ⟨reSub_markerLine_eq_trunc editedMarker s h,
    reSub_markerLine_eq_trunc attachMarker s h⟩

/-- Witness for C8's amended theorem on a concrete newline-free post. -/
theorem c8_marker_strips_witness :
    reSub (markerLineAt editedMarker) [] "ok Edited by sam today".toList =
        truncAtMarker editedMarker "ok Edited by sam today".toList ∧
      reSub (markerLineAt attachMarker) [] "ok Edited by sam today".toList =
        truncAtMarker attachMarker "ok Edited by sam today".toList :=
  c8_marker_strips_to_end_amended "ok Edited by sam today".toList (by decide)

/-- Counterexample for C8 as stated: with a newline after the marker the
code removes only the rest of the marker's line — `.*` does not match
`\n` — so text after the newline survives, both in the marker substitution
itself and in the final output of `clean_text_column`, where the claim
promises removal through the end of the string. -/
theorem c8_marker_newline_counterexample :
    reSub (markerLineAt editedMarker) [] "ab Edited by c\nkeep".toList ≠
        truncAtMarker editedMarker "ab Edited by c\nkeep".toList ∧
      clean_text_column "ab Edited by c\nkeep" = "ab keep" := by
  decide

/-- C6 (amended): `clean_text_column` is idempotent on fully clean inputs,
i.e. inputs every individual transformation of the chain leaves unchanged
(no URLs, no date/time tokens, no markers, and also no filename/size or
parenthetical artifacts, no mis-encoded bytes, no collapsible whitespace). -/
theorem c6_clean_idempotent_amended (s : List Char) (h : IsFullyClean s) :
    cleanChars (cleanChars s) = cleanChars s := by
  obtain ⟨h1, h2, h3, h4, h5, h6, h7, h8, h9, h10, h11, h12, h13, h14⟩ := h
  have hfix : cleanChars s = s := by
    unfold cleanChars
    rw [h1, h2, h3, h4, h5, h6, h7, h8, h9, h10, h11, h12, h13, h14]
  rw [hfix]
  exact hfix

/-- Witness for C6's amended theorem on a concrete fully clean text. -/
theorem c6_clean_idempotent_witness :
    cleanChars (cleanChars "good clean corn text".toList) =
      cleanChars "good clean corn text".toList :=
  c6_clean_idempotent_amended "good clean corn text".toList (by decide)

/-- Counterexample for C6 as stated: `"on a.jp(zfull).g go"` contains no
URL, no date or time token, and none of the "Edited by "/"Attachments"/
filename markers (the six relevant substitutions are each no-ops on it,
stated below), yet cleaning is not idempotent on it: removing the
parenthetical `"(zfull)."` fragment manufactures the filename token
`"a.jpg"`, which only a second pass deletes. -/
theorem c6_clean_not_idempotent_counterexample :
    (reSub dateCleanAt [] "on a.jp(zfull).g go".toList =
          "on a.jp(zfull).g go".toList ∧
        reSub timeCleanAt [] "on a.jp(zfull).g go".toList =
          "on a.jp(zfull).g go".toList ∧
        reSub urlAt [] "on a.jp(zfull).g go".toList =
          "on a.jp(zfull).g go".toList ∧
        reSub (markerLineAt editedMarker) [] "on a.jp(zfull).g go".toList =
          "on a.jp(zfull).g go".toList ∧
        reSub (markerLineAt attachMarker) [] "on a.jp(zfull).g go".toList =
          "on a.jp(zfull).g go".toList ∧
        reSub fileRefAt [] "on a.jp(zfull).g go".toList =
          "on a.jp(zfull).g go".toList) ∧
      cleanChars (cleanChars "on a.jp(zfull).g go".toList) ≠
        cleanChars "on a.jp(zfull).g go".toList := by
  decide

/-! ## Theorems for C7: helper lemmas on runs and the forced `\d{1,2}` -/

/-- Helper: a digit is not whitespace. -/
theorem digit_not_space (ch : Char) (h : isDigitC ch = true) :
    isSpaceC ch = false := by
  by_contra hc
  rw [Bool.not_eq_false] at hc
  simp only [isSpaceC, Bool.or_eq_true, decide_eq_true_eq] at hc
  rcases hc with ((((hc | hc) | hc) | hc) | hc) | hc <;> subst hc <;>
    simp [isDigitC] at h

/-- Helper: the whitespace run is bounded by the length. -/
theorem wsRun_le_length : ∀ s : List Char, wsRun s ≤ s.length := by
  intro s
  induction s with
  | nil => exact Nat.le_refl 0
  | cons ch cs ih =>
      unfold wsRun
      split_ifs with h
      · simpa using Nat.succ_le_succ ih
      · exact Nat.zero_le _

/-- Helper: the whitespace run consists of whitespace. -/
theorem wsRun_take_all : ∀ s : List Char,
    (s.take (wsRun s)).all isSpaceC = true := by
  intro s
  induction s with
  | nil => rfl
  | cons ch cs ih =>
      unfold wsRun
      split_ifs with h
      · simpa [List.all_cons, h] using ih
      · rfl

/-- Helper: the whitespace run of `w ++ ch :: rest` with `w` whitespace and
`ch` not is exactly `w.length`. -/
theorem wsRun_append (w : List Char) (ch : Char) (rest : List Char)
    (hw : w.all isSpaceC = true) (hc : isSpaceC ch = false) :
    wsRun (w ++ ch :: rest) = w.length := by
  induction w with
  | nil =>
      unfold wsRun
      simp [hc]
  | cons x xs ih =>
      rw [List.all_cons, Bool.and_eq_true] at hw
      unfold wsRun
      simp only [List.cons_append, hw.1, if_true, List.length_cons]
      rw [ih hw.2]

/-- Helper: the digit run is bounded by the length. -/
theorem digitRun_le_length : ∀ s : List Char, digitRun s ≤ s.length := by
  intro s
  induction s with
  | nil => exact Nat.le_refl 0
  | cons ch cs ih =>
      unfold digitRun
      split_ifs with h
      · simpa using Nat.succ_le_succ ih
      · exact Nat.zero_le _

/-- Helper: the digit run consists of digits. -/
theorem digitRun_take_all : ∀ s : List Char,
    (s.take (digitRun s)).all isDigitC = true := by
  intro s
  induction s with
  | nil => rfl
  | cons ch cs ih =>
      unfold digitRun
      split_ifs with h
      · simpa [List.all_cons, h] using ih
      · rfl

/-- Helper: the digit run is maximal — what follows it is empty or starts
with a non-digit. -/
theorem digitRun_drop : ∀ s : List Char,
    s.drop (digitRun s) = [] ∨
      ∃ c rest, s.drop (digitRun s) = c :: rest ∧ isDigitC c = false := by
  intro s
  induction s with
  | nil => exact Or.inl rfl
  | cons ch cs ih =>
      unfold digitRun
      split_ifs with h
      · simpa using ih
      · exact Or.inr ⟨ch, cs, rfl, by simpa using h⟩

/-- Helper: the digit run of `g ++ rest` with `g` all digits and `rest`
empty or starting with a non-digit is exactly `g.length`. -/
theorem digitRun_append (g rest : List Char) (hg : g.all isDigitC = true)
    (hrest : rest = [] ∨ ∃ c rest2, rest = c :: rest2 ∧ isDigitC c = false) :
    digitRun (g ++ rest) = g.length := by
  induction g with
  | nil =>
      rcases hrest with h | ⟨c, rest2, rfl, hc⟩
      · subst h; rfl
      · unfold digitRun
        simp [hc]
  | cons x xs ih =>
      rw [List.all_cons, Bool.and_eq_true] at hg
      unfold digitRun
      simp only [List.cons_append, hg.1, if_true, List.length_cons]
      rw [ih hg.2]

/-- Helper: dropping past a separated prefix. -/
theorem drop_sep (a : List Char) (sep : Char) (rest : List Char) :
    (a ++ sep :: rest).drop (a.length + 1) = rest := by
  induction a with
  | nil => rfl
  | cons x xs ih => simpa using ih

/-- Helper: `matchD12Sep` succeeds on a one- or two-digit prefix followed
by the (non-digit) separator, consuming through the separator. -/
theorem matchD12Sep_of (sep : Char) (hsep : isDigitC sep = false)
    (a rest : List Char) (ha : a ≠ []) (hlen : a.length ≤ 2)
    (hd : a.all isDigitC = true) :
    matchD12Sep sep (a ++ sep :: rest) = some (a.length + 1) := by
  match a, ha with
  | [x], _ =>
      rw [List.all_cons] at hd
      simp only [Bool.and_eq_true] at hd
      cases rest with
      | nil =>
          show matchD12Sep sep [x, sep] = some 2
          unfold matchD12Sep
          simp [hd.1]
      | cons r rs =>
          show matchD12Sep sep (x :: sep :: r :: rs) = some 2
          unfold matchD12Sep
          simp [hd.1, hsep]
  | [x, y], _ =>
      rw [List.all_cons, List.all_cons] at hd
      simp only [Bool.and_eq_true] at hd
      show matchD12Sep sep (x :: y :: sep :: rest) = some 3
      unfold matchD12Sep
      simp [hd.1, hd.2.1]
  | x :: y :: z :: t, _ =>
      simp at hlen

/-- Helper: inversion of a successful `matchD12Sep`. -/
theorem matchD12Sep_inv (sep : Char) (s : List Char) (k : Nat)
    (h : matchD12Sep sep s = some k) :
    ∃ a rest, s = a ++ sep :: rest ∧ a ≠ [] ∧ a.length ≤ 2 ∧
      a.all isDigitC = true ∧ k = a.length + 1 := by
  match s with
  | [] => exact absurd h (by simp [matchD12Sep])
  | [x] => exact absurd h (by simp [matchD12Sep])
  | [x, y] =>
      rw [show matchD12Sep sep [x, y] =
          (if (isDigitC x && y == sep) = true then some 2 else none) from rfl] at h
      split_ifs at h with h1
      · simp only [Bool.and_eq_true, beq_iff_eq] at h1
        obtain ⟨rfl⟩ := h1.2
        exact ⟨[x], [], rfl, by simp, by simp, by simp [h1.1],
          by simpa using h.symm⟩
  | x :: y :: z :: t =>
      simp only [matchD12Sep] at h
      split_ifs at h with h1 h2
      · simp only [Bool.and_eq_true, beq_iff_eq] at h1
        obtain ⟨⟨hx, hy⟩, rfl⟩ := h1
        exact ⟨[x, y], t, rfl, by simp, by simp, by simp [hx, hy],
          by simpa using h.symm⟩
      · simp only [Bool.and_eq_true, beq_iff_eq] at h2
        obtain ⟨hx, rfl⟩ := h2
        exact ⟨[x], z :: t, rfl, by simp, by simp, by simp [hx],
          by simpa using h.symm⟩

/-! ## Theorems for C7: the date matcher agrees with the declarative token -/

/-- Helper: completeness of `dateTail1` on a decomposed tail. -/
theorem dateTail1_of (w d e rest : List Char) (hw : w ≠ [])
    (hwall : w.all isSpaceC = true) (hd : d ≠ []) (hdlen : d.length ≤ 2)
    (hdall : d.all isDigitC = true) (he : e.length = 2)
    (heall : e.all isDigitC = true) :
    dateTail1 (w ++ (d ++ ':' :: (e ++ rest))) =
      some (w.length + (d.length + 1) + 2) := by
  obtain ⟨dc, dtl, rfl⟩ : ∃ dc dtl, d = dc :: dtl := by
    cases d with
    | nil => exact absurd rfl hd
    | cons dc dtl => exact ⟨dc, dtl, rfl⟩
  have hdc : isDigitC dc = true := by
    rw [List.all_cons, Bool.and_eq_true] at hdall
    exact hdall.1
  have hws : wsRun (w ++ ((dc :: dtl) ++ ':' :: (e ++ rest))) = w.length := by
    have := wsRun_append w dc (dtl ++ ':' :: (e ++ rest)) hwall
      (digit_not_space dc hdc)
    simpa using this
  have hwpos : 1 ≤ w.length := by
    cases w with
    | nil => exact absurd rfl hw
    | cons _ _ => simp
  have hm : matchD12Sep ':' ((dc :: dtl) ++ ':' :: (e ++ rest)) =
      some ((dc :: dtl).length + 1) :=
    matchD12Sep_of ':' (by decide) _ _ hd hdlen hdall
  have hds : ((dc :: dtl) ++ ':' :: (e ++ rest)).drop ((dc :: dtl).length + 1) =
      e ++ rest := drop_sep _ _ _
  have ht2 : dateTail2 (e ++ rest) = some 2 := by
    unfold dateTail2
    rw [if_pos ⟨by rw [List.length_append, he]; omega,
      by rw [List.take_left' he]; exact heall⟩]
  unfold dateTail1
  rw [hws, if_pos hwpos]
  simp only [List.drop_left, hm, hds, ht2]

/-- Helper: soundness of `dateTail1`. -/
theorem dateTail1_some (s : List Char) (k : Nat) (h : dateTail1 s = some k) :
    ∃ w d e rest, s = w ++ (d ++ ':' :: (e ++ rest)) ∧
      w ≠ [] ∧ w.all isSpaceC = true ∧ d ≠ [] ∧ d.length ≤ 2 ∧
      d.all isDigitC = true ∧ e.length = 2 ∧ e.all isDigitC = true ∧
      k = w.length + (d.length + 1) + 2 := by
  unfold dateTail1 at h
  split_ifs at h with h1
  cases hm : matchD12Sep ':' (s.drop (wsRun s)) with
  | none => simp [hm] at h
  | some k3 =>
      simp only [hm] at h
      cases ht : dateTail2 ((s.drop (wsRun s)).drop k3) with
      | none =>
          simp only [ht] at h
          exact Option.noConfusion h
      | some k4 =>
          simp only [ht, Option.some.injEq] at h
          obtain ⟨d, r1, hsplit, hd, hdlen, hdall, hk3⟩ :=
            matchD12Sep_inv ':' _ k3 hm
          have hr1 : (s.drop (wsRun s)).drop k3 = r1 := by
            rw [hsplit, hk3]
            exact drop_sep _ _ _
          rw [hr1] at ht
          unfold dateTail2 at ht
          split_ifs at ht with h2
          have hk4 : k4 = 2 := by simpa using ht.symm
          have hwlen : (s.take (wsRun s)).length = wsRun s := by
            rw [List.length_take]
            exact Nat.min_eq_left (wsRun_le_length s)
          refine ⟨s.take (wsRun s), d, r1.take 2, r1.drop 2, ?_, ?_,
            wsRun_take_all s, hd, hdlen, hdall, ?_, h2.2, ?_⟩
          · conv_lhs => rw [← List.take_append_drop (wsRun s) s]
            rw [hsplit, List.take_append_drop]
          · intro hnil
            rw [hnil] at hwlen
            simp at hwlen
            omega
          · rw [List.length_take]
            exact Nat.min_eq_left h2.1
          · omega

/-- Helper: completeness of `dateMid` on a decomposed middle. -/
theorem dateMid_of (c4 rest : List Char) (hc : c4.length = 4)
    (hd : c4.all isDigitC = true) (k : Nat) (ht : dateTail1 rest = some k) :
    dateMid (c4 ++ rest) = some (4 + k) := by
  unfold dateMid
  rw [if_pos ⟨by rw [List.length_append, hc]; omega,
    by rw [List.take_left' hc]; exact hd⟩, List.drop_left' hc, ht]

/-- Helper: soundness of `dateMid`. -/
theorem dateMid_some (s : List Char) (k : Nat) (h : dateMid s = some k) :
    ∃ c4 rest kt, s = c4 ++ rest ∧ c4.length = 4 ∧ c4.all isDigitC = true ∧
      dateTail1 rest = some kt ∧ k = 4 + kt := by
  unfold dateMid at h
  split_ifs at h with h1
  cases ht : dateTail1 (s.drop 4) with
  | none => simp [ht] at h
  | some kt =>
      simp only [ht, Option.some.injEq] at h
      refine ⟨s.take 4, s.drop 4, kt, (List.take_append_drop 4 s).symm,
        ?_, h1.2, ht, h.symm⟩
      rw [List.length_take]
      exact Nat.min_eq_left h1.1

/-- Helper: completeness of the date matcher — a date token occupying the
first `l` characters makes it succeed with exactly length `l`. -/
theorem dateSearchLen_of (s : List Char) (l : Nat) (hl : l ≤ s.length)
    (hd : IsDate7 (s.take l)) : dateSearchLen s = some l := by
  obtain ⟨a, b, c, w, d, e, hdecomp, ha, halen, haall, hb, hblen, hball,
    hclen, hcall, hw, hwall, hdn, hdlen, hdall, helen, heall⟩ := hd
  have hs : s = a ++ '/' ::
      (b ++ '/' :: (c ++ (w ++ (d ++ ':' :: (e ++ s.drop l))))) := by
    conv_lhs => rw [← List.take_append_drop l s]
    rw [hdecomp]
    simp [List.append_assoc]
  have hm1 : matchD12Sep '/' s = some (a.length + 1) := by
    rw [hs]
    exact matchD12Sep_of '/' (by decide) _ _ ha halen haall
  have hd1 : s.drop (a.length + 1) =
      b ++ '/' :: (c ++ (w ++ (d ++ ':' :: (e ++ s.drop l)))) := by
    conv_lhs => rw [hs]
    exact drop_sep _ _ _
  have hm2 : matchD12Sep '/' (s.drop (a.length + 1)) = some (b.length + 1) := by
    rw [hd1]
    exact matchD12Sep_of '/' (by decide) _ _ hb hblen hball
  have hd2 : (s.drop (a.length + 1)).drop (b.length + 1) =
      c ++ (w ++ (d ++ ':' :: (e ++ s.drop l))) := by
    rw [hd1]
    exact drop_sep _ _ _
  have hmid : dateMid (c ++ (w ++ (d ++ ':' :: (e ++ s.drop l)))) =
      some (4 + (w.length + (d.length + 1) + 2)) :=
    dateMid_of c _ hclen hcall _
      (dateTail1_of w d e (s.drop l) hw hwall hdn hdlen hdall helen heall)
  have hlsum : l = (a.length + 1) + (b.length + 1) +
      (4 + (w.length + (d.length + 1) + 2)) := by
    have h1 : (s.take l).length = l := by
      rw [List.length_take]
      exact Nat.min_eq_left hl
    rw [hdecomp] at h1
    simp [List.length_append, hclen, helen] at h1
    omega
  unfold dateSearchLen
  simp only [hm1, hm2, hd2, hmid]
  exact congrArg some hlsum.symm

/-- Helper: soundness of the date matcher — success means the consumed
prefix is a date token, inside the string. -/
theorem dateSearchLen_some (s : List Char) (k : Nat)
    (h : dateSearchLen s = some k) : k ≤ s.length ∧ IsDate7 (s.take k) := by
  unfold dateSearchLen at h
  cases hm1 : matchD12Sep '/' s with
  | none => simp [hm1] at h
  | some k1 =>
      simp only [hm1] at h
      cases hm2 : matchD12Sep '/' (s.drop k1) with
      | none => simp [hm2] at h
      | some k2 =>
          simp only [hm2] at h
          cases hmid : dateMid ((s.drop k1).drop k2) with
          | none =>
              simp only [hmid] at h
              exact Option.noConfusion h
          | some km =>
              simp only [hmid, Option.some.injEq] at h
              obtain ⟨a, r1, hs1, ha, halen, haall, hk1⟩ :=
                matchD12Sep_inv '/' s k1 hm1
              obtain ⟨b, r2, hs2, hb, hblen, hball, hk2⟩ :=
                matchD12Sep_inv '/' _ k2 hm2
              obtain ⟨c4, r3, kt, hs3, hc4, hc4all, ht1, hkm⟩ :=
                dateMid_some _ km hmid
              obtain ⟨w, d, e, r4, hs4, hwn, hwall, hdn, hdlen, hdall,
                helen, heall, hkt⟩ := dateTail1_some _ kt ht1
              have hr1 : s.drop k1 = r1 := by
                rw [hs1, hk1]
                exact drop_sep _ _ _
              have hr2 : (s.drop k1).drop k2 = r2 := by
                rw [hs2, hk2]
                exact drop_sep _ _ _
              have hsfull : s = a ++ '/' ::
                  (b ++ '/' :: (c4 ++ (w ++ (d ++ ':' :: (e ++ r4))))) := by
                rw [hs1, ← hr1, hs2, ← hr2, hs3, hs4]
              have hP : s = (a ++ '/' ::
                  (b ++ '/' :: (c4 ++ (w ++ (d ++ ':' :: e))))) ++ r4 := by
                rw [hsfull]
                simp [List.append_assoc]
              have hPlen : (a ++ '/' ::
                  (b ++ '/' :: (c4 ++ (w ++ (d ++ ':' :: e))))).length = k := by
                simp [List.length_append, hc4, helen]
                omega
              constructor
              · rw [hP, List.length_append, ← hPlen]
                omega
              · rw [hP, List.take_left' hPlen]
                exact ⟨a, b, c4, w, d, e, rfl, ha, halen, haall, hb, hblen,
                  hball, hc4, hc4all, hwn, hwall, hdn, hdlen, hdall, helen,
                  heall⟩

/-- Helper: a successful `re.search` gives the leftmost matching position,
inside the subject. -/
theorem reSearch_some (m : List Char → Option Nat) :
    ∀ (t : List Char) (i k : Nat), reSearch m t = some (i, k) →
      i ≤ t.length ∧ m (t.drop i) = some k ∧
        ∀ j, j < i → m (t.drop j) = none := by
  intro t
  induction t with
  | nil =>
      intro i k h
      unfold reSearch at h
      cases hm : m [] with
      | none => simp [hm] at h
      | some k' =>
          simp only [hm, Option.some.injEq, Prod.mk.injEq] at h
          obtain ⟨rfl, rfl⟩ := h
          exact ⟨Nat.zero_le _, hm, fun j hj => absurd hj (Nat.not_lt_zero j)⟩
  | cons c cs ih =>
      intro i k h
      unfold reSearch at h
      cases hm : m (c :: cs) with
      | some k' =>
          simp only [hm, Option.some.injEq, Prod.mk.injEq] at h
          obtain ⟨rfl, rfl⟩ := h
          exact ⟨Nat.zero_le _, hm, fun j hj => absurd hj (Nat.not_lt_zero j)⟩
      | none =>
          simp only [hm] at h
          cases hr : reSearch m cs with
          | none => simp [hr] at h
          | some ik =>
              obtain ⟨i', k'⟩ := ik
              simp only [hr, Option.map_some', Option.some.injEq,
                Prod.mk.injEq] at h
              obtain ⟨rfl, rfl⟩ := h
              obtain ⟨h1, h2, h3⟩ := ih i' k' hr
              refine ⟨Nat.succ_le_succ h1, by simpa using h2, ?_⟩
              intro j hj
              cases j with
              | zero => simpa using hm
              | succ j' =>
                  have := h3 j' (Nat.lt_of_succ_lt_succ hj)
                  simpa using this

/-- Helper: a failed `re.search` means the matcher fails at every
position. -/
theorem reSearch_none (m : List Char → Option Nat) :
    ∀ t : List Char, reSearch m t = none → ∀ j, m (t.drop j) = none := by
  intro t
  induction t with
  | nil =>
      intro h j
      unfold reSearch at h
      cases hm : m [] with
      | some k => simp [hm] at h
      | none => simpa using hm
  | cons c cs ih =>
      intro h j
      unfold reSearch at h
      cases hm : m (c :: cs) with
      | some k => simp [hm] at h
      | none =>
          simp only [hm] at h
          cases j with
          | zero => simpa using hm
          | succ j' =>
              have hr : reSearch m cs = none := by
                cases hr : reSearch m cs with
                | none => rfl
                | some ik => simp [hr] at h
              simpa using ih hr j'

/-- Helper: the id matcher succeeds exactly on `#` + digit, consuming the
hash and the maximal digit run. -/
theorem idSearchLen_hash (c : Char) (rest : List Char)
    (hc : isDigitC c = true) :
    idSearchLen ('#' :: c :: rest) = some (1 + digitRun (c :: rest)) := by
  simp [idSearchLen, hc]

/-- Helper: inversion of a successful id match. -/
theorem idSearchLen_some (s : List Char) (k : Nat)
    (h : idSearchLen s = some k) :
    ∃ c rest, s = '#' :: c :: rest ∧ isDigitC c = true ∧
      k = 1 + digitRun (c :: rest) := by
  match s with
  | [] => exact absurd h (by simp [idSearchLen])
  | [x] => exact absurd h (by simp [idSearchLen])
  | x :: y :: rest =>
      simp only [idSearchLen] at h
      split_ifs at h with hxy
      obtain ⟨rfl, hy⟩ := hxy
      exact ⟨y, rest, rfl, hy, by simpa using h.symm⟩

/-- C7: for every header text assembled by `parse_thread`, `post_date` is
exactly the text of the match at the leftmost position where the date
pattern `\d{1,2}/\d{1,2}/\d{4}\s+\d{1,2}:\d{2}` matches (with the match
length there unique), and is null iff no substring matches; and `post_id`
is exactly the maximal digit run after the first `#` that is followed by a
digit, and is null iff no such `#` exists. -/
theorem c7_parse_thread_first_match (t : List Char) :
    (∀ s, extract_post_date t = some s →
        ∃ i, i + s.length ≤ t.length ∧ seg t i s.length = s ∧ IsDate7 s ∧
          (∀ j l, j + l ≤ t.length → IsDate7 (seg t j l) → i ≤ j) ∧
          ∀ l, i + l ≤ t.length → IsDate7 (seg t i l) → l = s.length) ∧
      (extract_post_date t = none →
        ∀ j l, j + l ≤ t.length → ¬IsDate7 (seg t j l)) ∧
      (∀ g, extract_post_id t = some g →
        ∃ i, IsHashDigitAt t i ∧ (∀ j, j < i → ¬IsHashDigitAt t j) ∧
          CapturedDigitsAt t i g) ∧
      (extract_post_id t = none → ∀ j, ¬IsHashDigitAt t j) := by
  refine ⟨?_, ?_, ?_, ?_⟩
  · intro s hs
    unfold extract_post_date at hs
    cases hr : reSearch dateSearchLen t with
    | none => simp [hr] at hs
    | some ik =>
        obtain ⟨i, k⟩ := ik
        simp only [hr, Option.map_some', Option.some.injEq] at hs
        obtain ⟨hile, hmk, hnone⟩ := reSearch_some dateSearchLen t i k hr
        obtain ⟨hkle, hdate⟩ := dateSearchLen_some _ _ hmk
        have hslen : s.length = k := by
          rw [← hs]
          unfold seg
          rw [List.length_take]
          exact Nat.min_eq_left hkle
        rw [List.length_drop] at hkle
        refine ⟨i, ?_, ?_, ?_, ?_, ?_⟩
        · rw [hslen]
          omega
        · rw [hslen, hs]
        · rw [← hs]
          exact hdate
        · intro j l hjl hd
          by_contra hc
          push_neg at hc
          have hnj := hnone j hc
          have : dateSearchLen (t.drop j) = some l := by
            apply dateSearchLen_of
            · rw [List.length_drop]
              omega
            · exact hd
          rw [hnj] at this
          exact Option.noConfusion this
        · intro l hil hd
          have h2 : dateSearchLen (t.drop i) = some l := by
            apply dateSearchLen_of
            · rw [List.length_drop]
              omega
            · exact hd
          rw [hslen]
          exact (Option.some.inj (hmk.symm.trans h2)).symm
  · intro hn j l hjl hd
    unfold extract_post_date at hn
    cases hr : reSearch dateSearchLen t with
    | some ik => simp [hr] at hn
    | none =>
        have hnj := reSearch_none dateSearchLen t hr j
        have h2 : dateSearchLen (t.drop j) = some l := by
          apply dateSearchLen_of
          · rw [List.length_drop]
            omega
          · exact hd
        rw [hnj] at h2
        exact Option.noConfusion h2
  · intro g hg
    unfold extract_post_id at hg
    cases hr : reSearch idSearchLen t with
    | none => simp [hr] at hg
    | some ik =>
        obtain ⟨i, k⟩ := ik
        simp only [hr, Option.map_some', Option.some.injEq] at hg
        obtain ⟨hile, hmk, hnone⟩ := reSearch_some idSearchLen t i k hr
        obtain ⟨c, rest, hdrop, hc, hk⟩ := idSearchLen_some _ _ hmk
        have hdd : (t.drop i).drop 1 = t.drop (i + 1) := by
          rw [List.drop_drop]
        have hdrop1 : t.drop (i + 1) = c :: rest := by
          rw [← hdd, hdrop]
          rfl
        have hrun : k - 1 = digitRun (c :: rest) := by omega
        have hgG : g = (c :: rest).take (digitRun (c :: rest)) := by
          rw [← hg]
          unfold seg
          rw [hdrop1, hrun]
        have hr1 : digitRun (c :: rest) = digitRun rest + 1 := by
          simp [digitRun, hc]
        refine ⟨i, ⟨c, rest, hdrop, hc⟩, ?_, ?_⟩
        · intro j hj hhash
          obtain ⟨c', rest', hdrop', hc'⟩ := hhash
          have hnj := hnone j hj
          rw [hdrop', idSearchLen_hash c' rest' hc'] at hnj
          exact Option.noConfusion hnj
        · refine ⟨(c :: rest).drop (digitRun (c :: rest)), ?_, ?_, ?_, ?_⟩
          · rw [hdrop1, hgG]
            exact (List.take_append_drop _ _).symm
          · rw [hgG, hr1]
            simp
          · rw [hgG]
            exact digitRun_take_all _
          · exact digitRun_drop (c :: rest)
  · intro hn j hhash
    unfold extract_post_id at hn
    cases hr : reSearch idSearchLen t with
    | some ik => simp [hr] at hn
    | none =>
        obtain ⟨c, rest, hdrop, hc⟩ := hhash
        have hnj := reSearch_none idSearchLen t hr j
        rw [hdrop, idSearchLen_hash c rest hc] at hnj
        exact Option.noConfusion hnj

/-- Witness for C7's theorem: the end-to-end header of §8 of the spec,
where the extracted date is `"3/4/2022 10:15"`. -/
theorem c7_parse_thread_witness :
    ∃ i, i + ("3/4/2022 10:15".toList).length ≤
        ("John Doe #12 3/4/2022 10:15".toList).length ∧
      seg "John Doe #12 3/4/2022 10:15".toList i
          ("3/4/2022 10:15".toList).length = "3/4/2022 10:15".toList ∧
      IsDate7 "3/4/2022 10:15".toList ∧
      (∀ j l, j + l ≤ ("John Doe #12 3/4/2022 10:15".toList).length →
        IsDate7 (seg "John Doe #12 3/4/2022 10:15".toList j l) → i ≤ j) ∧
      ∀ l, i + l ≤ ("John Doe #12 3/4/2022 10:15".toList).length →
        IsDate7 (seg "John Doe #12 3/4/2022 10:15".toList i l) →
          l = ("3/4/2022 10:15".toList).length :=
  (c7_parse_thread_first_match "John Doe #12 3/4/2022 10:15".toList).1
    "3/4/2022 10:15".toList (by decide)

end AgTalk
